import Mathlib

/-!
# Verification of the TGScanner discovery-and-evaluation pipeline

Shallow embedding of the core logic of `find_toi.py` and `find_magazine.py`:
the pattern matcher (`compile_matchers`), the candidate extractor and
deduplicator, the decision cache and batch evaluator of `MagazineSearcher`,
and the shared `retry_with_backoff` wrapper.  Python strings are modelled as
`List Char`, machine integers as `Nat`, dictionaries as insertion-ordered
association lists, exceptions as `Except` results, and the external
collaborators (Telegram client, Gemini classifier, JSON codec, filesystem)
as explicit function parameters.
-/

set_option maxHeartbeats 1000000

namespace TGScanner

/-! ## Decimal rendering of naturals (Python `str(int)` / f-string `{n}`) -/

/-- Decimal digits, most significant first; `[]` for `0`.  The first
argument is structural fuel (any fuel `≥ n` computes the digits of `n`),
keeping the definition kernel-reducible. -/
def natDigitsAux : Nat → Nat → List Char
  | _, 0 => []
  | 0, _ + 1 => []
  | fuel + 1, n + 1 =>
    natDigitsAux fuel ((n + 1) / 10) ++ [Nat.digitChar ((n + 1) % 10)]

/-- Decimal digits of `n`, most significant first; `[]` for `0`. -/
def natDigits (n : Nat) : List Char := natDigitsAux n n

/-- Python's decimal rendering `str(n)` of a non-negative integer. -/
def natToDec (n : Nat) : List Char :=
  if n = 0 then ['0'] else natDigits n

/-- Value of a digit string, used only to invert `natToDec`. -/
def decVal (l : List Char) : Nat :=
  l.foldl (fun a c => a * 10 + (c.toNat - 48)) 0

theorem decVal_append_digit (l : List Char) (c : Char) :
    decVal (l ++ [c]) = decVal l * 10 + (c.toNat - 48) := by
  simp [decVal, List.foldl_append]

theorem digitChar_toNat {r : Nat} (h : r < 10) :
    (Nat.digitChar r).toNat = 48 + r := by
  revert h
  show r < 10 → (Nat.digitChar r).toNat = 48 + r
  revert r
  decide

theorem decVal_natDigitsAux :
    ∀ fuel n, n ≤ fuel → decVal (natDigitsAux fuel n) = n := by
  intro fuel
  induction fuel with
  | zero =>
    intro n hn
    interval_cases n
    simp [natDigitsAux, decVal]
  | succ fuel ih =>
    intro n hn
    match n with
    | 0 => simp [natDigitsAux, decVal]
    | m + 1 =>
      rw [natDigitsAux, decVal_append_digit, ih ((m + 1) / 10) (by omega),
        digitChar_toNat (Nat.mod_lt _ (by omega))]
      omega

theorem decVal_natDigits (n : Nat) : decVal (natDigits n) = n :=
  decVal_natDigitsAux n n le_rfl

theorem decVal_natToDec (n : Nat) : decVal (natToDec n) = n := by
  by_cases h : n = 0
  · simp [natToDec, h, decVal]
  · simp [natToDec, h, decVal_natDigits]

theorem natToDec_injective : Function.Injective natToDec := by
  intro a b h
  have := decVal_natToDec a
  rw [h, decVal_natToDec] at this
  omega

theorem mem_natDigitsAux_isDigit :
    ∀ fuel n, ∀ c ∈ natDigitsAux fuel n, 48 ≤ c.toNat ∧ c.toNat ≤ 57 := by
  intro fuel
  induction fuel with
  | zero =>
    intro n c hc
    match n with
    | 0 => simp [natDigitsAux] at hc
    | _ + 1 => simp [natDigitsAux] at hc
  | succ fuel ih =>
    intro n c hc
    match n with
    | 0 => simp [natDigitsAux] at hc
    | m + 1 =>
      rw [natDigitsAux] at hc
      rcases List.mem_append.1 hc with h' | h'
      · exact ih ((m + 1) / 10) c h'
      · have hc' : c = Nat.digitChar ((m + 1) % 10) := by simpa using h'
        subst hc'
        rw [digitChar_toNat (Nat.mod_lt _ (by omega))]
        omega

theorem mem_natDigits_isDigit {n : Nat} {c : Char} (h : c ∈ natDigits n) :
    48 ≤ c.toNat ∧ c.toNat ≤ 57 :=
  mem_natDigitsAux_isDigit n n c h

/-- Digits never contain a colon: needed for fingerprint-input injectivity. -/
theorem mem_natToDec_ne_colon {n : Nat} {c : Char} (h : c ∈ natToDec n) :
    c ≠ ':' := by
  unfold natToDec at h
  split at h
  · intro hc; subst hc; simp at h
  · intro hc
    have hb := mem_natDigits_isDigit h
    have hcolon : (':' : Char).toNat = 58 := by decide
    rw [hc, hcolon] at hb
    omega

/-! ## String primitives

Python strings are modelled as `List Char`.  `lower` models `str.lower()`
restricted to ASCII (all literals the scripts match on are ASCII);
`containsB` models Python's substring test `pat in s`. -/

/-- `str.lower()` (ASCII). -/
def lower (l : List Char) : List Char := l.map Char.toLower

/-- Boolean prefix test. -/
def isPrefixB : List Char → List Char → Bool
  | [], _ => true
  | _ :: _, [] => false
  | a :: asl, b :: bs => a == b && isPrefixB asl bs

/-- Boolean substring test, Python's `pat in s`. -/
def containsB (pat : List Char) : List Char → Bool
  | [] => isPrefixB pat []
  | c :: l => isPrefixB pat (c :: l) || containsB pat l

theorem isPrefixB_iff (pat l : List Char) : isPrefixB pat l = true ↔ pat <+: l := by
  induction pat generalizing l with
  | nil => simp [isPrefixB]
  | cons a asl ih =>
    cases l with
    | nil => simp [isPrefixB]
    | cons b bs =>
      show (a == b && isPrefixB asl bs) = true ↔ _
      rw [Bool.and_eq_true, beq_iff_eq, ih, List.cons_prefix_cons]

theorem containsB_iff (pat l : List Char) : containsB pat l = true ↔ pat <:+: l := by
  induction l with
  | nil =>
    rw [containsB, isPrefixB_iff, List.prefix_nil]
    constructor
    · intro h; subst h; exact List.nil_infix
    · intro h; simpa using h
  | cons c l ih =>
    simp only [containsB, Bool.or_eq_true, isPrefixB_iff, ih]
    constructor
    · rintro (h | h)
      · exact h.isInfix
      · exact h.trans (List.suffix_cons c l).isInfix
    · intro h
      rcases List.infix_cons_iff.1 h with h' | h'
      · exact Or.inl h'
      · exact Or.inr h'

theorem containsB_trans {p q l : List Char} (hpq : containsB p q = true)
    (hql : containsB q l = true) : containsB p l = true := by
  rw [containsB_iff] at *
  exact hpq.trans hql

/-! ## `find_toi.compile_matchers` — the deterministic pattern matcher

The source builds (after parsing `date_str` with `strptime("%d-%m-%Y")`)
the regex

  `(?=.*TOI[H]?)(?=.*(?:hyd|hyderabad))(?=.*P1|P2|P3|P4)`

with `re.IGNORECASE`, where `P1..P4` are the four date patterns over the
separator class `[-./\s]`, joined by bare `|` (no group): the `.*`
belongs to `P1` only, so `P2`, `P3` and `P4` are anchored at the search
position.  `regex.search(fname)` succeeds iff some position of the
filename satisfies all three lookaheads at once; each lookahead is
modelled on the rest of the string from that position (`TOI[H]?` occurs
iff `TOI` does, the trailing `H` being optional; `.`-excludes-newline is
not modelled, filenames being taken newline-free).  Matching is on the
lower-cased filename; `str.lower` is the identity on the patterns'
digits and separators. -/

/-- Python f-string `f"{n:02d}"` for a non-negative integer. -/
def pad2 (n : Nat) : List Char :=
  if n < 10 then '0' :: natToDec n else natToDec n

/-- Python `str.split(sep)` for a single-character separator. -/
def splitOnChar (sep : Char) : List Char → List (List Char)
  | [] => [[]]
  | c :: l =>
    match splitOnChar sep l with
    | [] => [[]]
    | h :: t => if c = sep then [] :: h :: t else (c :: h) :: t

/-- The `strptime` day field `(?P<d>3[0-1]|[1-2]\d|0[1-9]|[1-9]| [1-9])`:
a two-digit value 1–31, a bare digit 1–9, or a space-padded digit 1–9. -/
def parseDay : List Char → Option Nat
  | [c] => if c.isDigit ∧ c ≠ '0' then some (c.toNat - 48) else none
  | [' ', c] => if c.isDigit ∧ c ≠ '0' then some (c.toNat - 48) else none
  | [c1, c2] =>
    if c1.isDigit ∧ c2.isDigit ∧ 1 ≤ decVal [c1, c2] ∧ decVal [c1, c2] ≤ 31
    then some (decVal [c1, c2]) else none
  | _ => none

/-- The `strptime` month field `(?P<m>1[0-2]|0[1-9]|[1-9])`: a two-digit
value 1–12 or a bare digit 1–9 (no space-padded form). -/
def parseMonth : List Char → Option Nat
  | [c] => if c.isDigit ∧ c ≠ '0' then some (c.toNat - 48) else none
  | [c1, c2] =>
    if c1.isDigit ∧ c2.isDigit ∧ 1 ≤ decVal [c1, c2] ∧ decVal [c1, c2] ≤ 12
    then some (decVal [c1, c2]) else none
  | _ => none

/-- The `strptime` year field `(?P<Y>\d\d\d\d)`: exactly four digits;
`datetime` then requires `year ≥ 1`, so `0000` fails. -/
def parseYear (l : List Char) : Option Nat :=
  if l.length = 4 ∧ l.all Char.isDigit ∧ 1 ≤ decVal l then some (decVal l)
  else none

/-- Gregorian leap year, as validated by `datetime`. -/
def isLeap (y : Nat) : Bool :=
  y % 4 = 0 && (y % 100 ≠ 0 || y % 400 = 0)

/-- Days in a month, as validated by `datetime`. -/
def daysInMonth (m y : Nat) : Nat :=
  if m = 2 then (if isLeap y then 29 else 28)
  else if m = 4 ∨ m = 6 ∨ m = 9 ∨ m = 11 then 30
  else 31

/-- `datetime.strptime(date_str, "%d-%m-%Y")`: the three field regexes
joined by literal dashes, matching the whole string, then calendar
validation by the `datetime` constructor.  None of the field regexes can
match a dash, so the format matches exactly the strings with two dashes
whose three dash-separated pieces match the fields — hence the split. -/
def parseDDMMYYYY (l : List Char) : Option (Nat × Nat × Nat) :=
  match splitOnChar '-' l with
  | [ds, ms, ys] =>
    match parseDay ds, parseMonth ms, parseYear ys with
    | some d, some m, some y =>
      if d ≤ daysInMonth m y then some (d, m, y) else none
    | _, _, _ => none
  | _ => none

/-- The separator class `[-./\s]` of the date patterns: dash, dot, slash,
and every character Python's Unicode `\s` matches (U+0009–U+000D,
U+001C–U+001F, space, U+0085, NBSP, U+1680, U+2000–U+200A, U+2028,
U+2029, U+202F, U+205F, U+3000). -/
def sepChars : List Char :=
  ['-', '.', '/',
    '\x09', '\x0a', '\x0b', '\x0c', '\x0d',
    '\x1c', '\x1d', '\x1e', '\x1f', '\x20', '\x85', '\xa0',
    '\u1680', '\u2000', '\u2001', '\u2002', '\u2003', '\u2004',
    '\u2005', '\u2006', '\u2007', '\u2008', '\u2009', '\u200a',
    '\u2028', '\u2029', '\u202f', '\u205f', '\u3000']

/-- One token of the date regex: a literal run or the separator class. -/
inductive RTok where
  | lit (s : List Char)
  | sep
deriving DecidableEq

/-- Match a token sequence against a prefix of `l`. -/
def matchToks : List RTok → List Char → Bool
  | [], _ => true
  | .lit s :: ts, l => isPrefixB s l && matchToks ts (l.drop s.length)
  | .sep :: _, [] => false
  | .sep :: ts, c :: l => sepChars.contains c && matchToks ts l

/-- `re.search`: try the token sequence at every position. -/
def searchToks (ts : List RTok) : List Char → Bool
  | [] => matchToks ts []
  | c :: l => matchToks ts (c :: l) || searchToks ts l

/-- Source pattern `rf"{day:02d}[-./\s]{month:02d}[-./\s]{year}"`. -/
def datePat1 (d m y : Nat) : List RTok :=
  [.lit (pad2 d), .sep, .lit (pad2 m), .sep, .lit (natToDec y)]

/-- Source pattern `rf"{day:02d}[-./\s]{month:02d}"`. -/
def datePat2 (d m : Nat) : List RTok :=
  [.lit (pad2 d), .sep, .lit (pad2 m)]

/-- Source pattern `rf"{day}[-./\s]{month:02d}[-./\s]{year}"`. -/
def datePat3 (d m y : Nat) : List RTok :=
  [.lit (natToDec d), .sep, .lit (pad2 m), .sep, .lit (natToDec y)]

/-- Source pattern `rf"{day}[-./\s]{month:02d}"`. -/
def datePat4 (d m : Nat) : List RTok :=
  [.lit (natToDec d), .sep, .lit (pad2 m)]

/-- The third lookahead `(?=.*{date_pattern})` at one search position,
where `date_pattern = "|".join(date_patterns)` substitutes to
`.*P1|P2|P3|P4`: the bare `|` has lowest precedence, so the `.*` belongs
to the first alternative only.  At a position (with `s` the rest of the
filename from there), the zero-padded day-month-year pattern may occur
anywhere at or after it, while the other three alternatives must match
exactly at it. -/
def dateLookahead (d m y : Nat) (s : List Char) : Bool :=
  searchToks (datePat1 d m y) s || matchToks (datePat2 d m) s ||
    matchToks (datePat3 d m y) s || matchToks (datePat4 d m) s

/-- All three lookaheads of the compiled regex evaluated at one search
position: `.*TOI[H]?` holds iff `TOI` occurs in the rest of the string,
`.*(?:hyd|hyderabad)` iff one of the locale tokens occurs in it. -/
def matcherCond (d m y : Nat) (s : List Char) : Bool :=
  containsB "toi".data s &&
    (containsB "hyd".data s || containsB "hyderabad".data s) &&
    dateLookahead d m y s

/-- `regex.search(fname)`: try the lookaheads at every position. -/
def matcherSearch (d m y : Nat) : List Char → Bool
  | [] => matcherCond d m y []
  | c :: l => matcherCond d m y (c :: l) || matcherSearch d m y l

/-- `compile_matchers(keywords, date_str)` followed by `regex.search(fname)`.
Note the source never reads `keywords`: the first lookahead is the
hard-coded `TOI[H]?`.  In the fallback branch (`date_str` unparseable) the
date pattern is the single escaped literal, so all three lookaheads carry
a `.*` and the search reduces to the conjunction of three containment
tests (a match at position 0). -/
def compiledMatcher (keywords : List (List Char)) (dateStr : List Char)
    (fname : List Char) : Bool :=
  let lf := lower fname
  match parseDDMMYYYY dateStr with
  | some (d, m, y) => matcherSearch d m y lf
  | none =>
    containsB "toi".data lf &&
      (containsB "hyd".data lf || containsB "hyderabad".data lf) &&
      containsB (lower dateStr) lf

/-! Claim-side descriptions (spec §4.1), to be compared with the matcher. -/

/-- The separators named by the claim: `-`, `.`, `/`, space. -/
def claimSeps : List Char := ['-', '.', '/', ' ']

/-- The accepted textual encodings of a date per spec §4.1: day, separator,
month, optionally separator and year; day both zero-padded and bare. -/
def dateEncodings (seps : List Char) (d m y : Nat) : List (List Char) :=
  (seps.flatMap fun a => seps.flatMap fun b =>
    [pad2 d ++ a :: (pad2 m ++ b :: natToDec y),
      natToDec d ++ a :: (pad2 m ++ b :: natToDec y)]) ++
  (seps.flatMap fun a =>
    [pad2 d ++ a :: pad2 m, natToDec d ++ a :: pad2 m])

/-- "The date appears in one of the accepted encodings". -/
def dateAppears (seps : List Char) (d m y : Nat) (l : List Char) : Bool :=
  (dateEncodings seps d m y).any fun e => containsB e l

/-- The predicate claimed by C1: some supplied keyword is a substring, some
locale token is a substring, and the date appears (claimed separators). -/
def claimedMatcher (keywords : List (List Char)) (d m y : Nat)
    (fname : List Char) : Bool :=
  let lf := lower fname
  keywords.any (fun k => containsB (lower k) lf) &&
    (containsB "hyd".data lf || containsB "hyderabad".data lf) &&
    dateAppears claimSeps d m y lf

/-- All concrete strings a token sequence can match (one per choice of
separator characters). -/
def expandToks : List RTok → List (List Char)
  | [] => [[]]
  | .lit s :: ts => (expandToks ts).map (s ++ ·)
  | .sep :: ts => sepChars.flatMap fun c => (expandToks ts).map (c :: ·)

theorem matchToks_iff_expand (ts : List RTok) (t : List Char) :
    matchToks ts t = true ↔ ∃ s ∈ expandToks ts, s <+: t := by
  induction ts generalizing t with
  | nil => simp [matchToks, expandToks, List.nil_prefix]
  | cons tok ts ih =>
    cases tok with
    | lit s =>
      simp only [matchToks, Bool.and_eq_true, isPrefixB_iff, ih, expandToks,
        List.mem_map]
      constructor
      · rintro ⟨⟨t1, rfl⟩, e, he, hpre⟩
        rw [List.drop_left] at hpre
        exact ⟨s ++ e, ⟨e, he, rfl⟩, (List.prefix_append_right_inj s).2 hpre⟩
      · rintro ⟨_, ⟨e, he, rfl⟩, hpre⟩
        rcases hpre with ⟨r, hr⟩
        rw [List.append_assoc] at hr
        subst hr
        refine ⟨List.prefix_append _ _, e, he, ?_⟩
        rw [List.drop_left]
        exact List.prefix_append _ _
    | sep =>
      cases t with
      | nil =>
        simp only [matchToks, expandToks, List.mem_flatMap, List.mem_map,
          List.prefix_nil]
        constructor
        · intro h; cases h
        · rintro ⟨s, ⟨c, _, e, _, rfl⟩, hs⟩
          cases hs
      | cons c t' =>
        simp only [matchToks, Bool.and_eq_true, ih, expandToks,
          List.mem_flatMap, List.mem_map]
        constructor
        · rintro ⟨hc, e, he, hpre⟩
          have hcm : c ∈ sepChars := by simpa using hc
          exact ⟨c :: e, ⟨c, hcm, e, he, rfl⟩,
            List.cons_prefix_cons.2 ⟨rfl, hpre⟩⟩
        · rintro ⟨_, ⟨c', hc', e, he, rfl⟩, hpre⟩
          rcases List.cons_prefix_cons.1 hpre with ⟨rfl, hpre'⟩
          exact ⟨by simpa using hc', e, he, hpre'⟩

theorem searchToks_iff (ts : List RTok) (l : List Char) :
    searchToks ts l = true ↔ ∃ t, t <:+ l ∧ matchToks ts t = true := by
  induction l with
  | nil =>
    rw [searchToks]
    constructor
    · intro h; exact ⟨[], List.suffix_rfl, h⟩
    · rintro ⟨t, ht, hm⟩
      have : t = [] := by simpa using ht
      subst this; exact hm
  | cons c l ih =>
    simp only [searchToks, Bool.or_eq_true, ih]
    constructor
    · rintro (h | ⟨t, ht, hm⟩)
      · exact ⟨c :: l, List.suffix_rfl, h⟩
      · exact ⟨t, ht.trans (List.suffix_cons c l), hm⟩
    · rintro ⟨t, ht, hm⟩
      rcases List.suffix_cons_iff.1 ht with h' | h'
      · subst h'; exact Or.inl hm
      · exact Or.inr ⟨t, h', hm⟩

/-- `re.search` of a token pattern succeeds iff one of its concrete
instantiations occurs as a substring. -/
theorem searchToks_iff_infix (ts : List RTok) (l : List Char) :
    searchToks ts l = true ↔ ∃ s ∈ expandToks ts, s <:+: l := by
  rw [searchToks_iff]
  constructor
  · rintro ⟨t, ht, hm⟩
    rcases (matchToks_iff_expand ts t).1 hm with ⟨s, hs, hpre⟩
    exact ⟨s, hs, List.infix_iff_prefix_suffix.2 ⟨t, hpre, ht⟩⟩
  · rintro ⟨s, hs, hinf⟩
    rcases List.infix_iff_prefix_suffix.1 hinf with ⟨t, hpre, ht⟩
    exact ⟨t, ht, (matchToks_iff_expand ts t).2 ⟨s, hs, hpre⟩⟩

theorem mem_expand_lit_sep_lit {a b s : List Char} :
    s ∈ expandToks [.lit a, .sep, .lit b] ↔
      ∃ c ∈ sepChars, s = a ++ c :: b := by
  simp [expandToks, eq_comm]
  aesop

theorem mem_expand_lit_sep_lit_sep_lit {a b c s : List Char} :
    s ∈ expandToks [.lit a, .sep, .lit b, .sep, .lit c] ↔
      ∃ c1 ∈ sepChars, ∃ c2 ∈ sepChars, s = a ++ c1 :: (b ++ c2 :: c) := by
  simp [expandToks, eq_comm]
  aesop

/-- The year-full encodings of the date: zero-padded day, separator,
zero-padded month, separator, four-digit year, over a separator set. -/
def dateEncodingsYear (seps : List Char) (d m y : Nat) :
    List (List Char) :=
  seps.flatMap fun a => seps.flatMap fun b =>
    [pad2 d ++ a :: (pad2 m ++ b :: natToDec y)]

/-- The three anchored alternatives of the date lookahead: zero-padded
day-month without year, bare-day with year, bare-day without year. -/
def dateEncodingsAnchored (seps : List Char) (d m y : Nat) :
    List (List Char) :=
  (seps.flatMap fun a => [pad2 d ++ a :: pad2 m]) ++
    ((seps.flatMap fun a => seps.flatMap fun b =>
      [natToDec d ++ a :: (pad2 m ++ b :: natToDec y)]) ++
      (seps.flatMap fun a => [natToDec d ++ a :: pad2 m]))

/-- The date lookahead at a position holds iff a year-full encoding is a
substring of the rest of the string, or an anchored encoding is a prefix
of it. -/
theorem dateLookahead_iff (d m y : Nat) (s : List Char) :
    dateLookahead d m y s = true ↔
      (∃ e ∈ dateEncodingsYear sepChars d m y, e <:+: s) ∨
        ∃ e ∈ dateEncodingsAnchored sepChars d m y, e <+: s := by
  simp only [dateLookahead, Bool.or_eq_true, searchToks_iff_infix,
    matchToks_iff_expand, datePat1, datePat2, datePat3, datePat4,
    dateEncodingsYear, dateEncodingsAnchored, List.mem_append,
    List.mem_flatMap, List.mem_cons, List.not_mem_nil, or_false]
  constructor
  · rintro (((⟨e, he, hp⟩ | ⟨e, he, hp⟩) | ⟨e, he, hp⟩) | ⟨e, he, hp⟩)
    · rcases mem_expand_lit_sep_lit_sep_lit.1 he with ⟨c1, hc1, c2, hc2, rfl⟩
      exact Or.inl ⟨_, ⟨c1, hc1, c2, hc2, rfl⟩, hp⟩
    · rcases mem_expand_lit_sep_lit.1 he with ⟨c1, hc1, rfl⟩
      exact Or.inr ⟨_, Or.inl ⟨c1, hc1, rfl⟩, hp⟩
    · rcases mem_expand_lit_sep_lit_sep_lit.1 he with ⟨c1, hc1, c2, hc2, rfl⟩
      exact Or.inr ⟨_, Or.inr (Or.inl ⟨c1, hc1, c2, hc2, rfl⟩), hp⟩
    · rcases mem_expand_lit_sep_lit.1 he with ⟨c1, hc1, rfl⟩
      exact Or.inr ⟨_, Or.inr (Or.inr ⟨c1, hc1, rfl⟩), hp⟩
  · rintro (⟨e, ⟨c1, hc1, c2, hc2, rfl⟩, hp⟩ |
      ⟨e, ⟨c1, hc1, rfl⟩ | ⟨c1, hc1, c2, hc2, rfl⟩ | ⟨c1, hc1, rfl⟩, hp⟩)
    · exact Or.inl <| Or.inl <| Or.inl
        ⟨_, mem_expand_lit_sep_lit_sep_lit.2 ⟨c1, hc1, c2, hc2, rfl⟩, hp⟩
    · exact Or.inl <| Or.inl <| Or.inr
        ⟨_, mem_expand_lit_sep_lit.2 ⟨c1, hc1, rfl⟩, hp⟩
    · exact Or.inl <| Or.inr
        ⟨_, mem_expand_lit_sep_lit_sep_lit.2 ⟨c1, hc1, c2, hc2, rfl⟩, hp⟩
    · exact Or.inr ⟨_, mem_expand_lit_sep_lit.2 ⟨c1, hc1, rfl⟩, hp⟩

theorem matcherSearch_iff (d m y : Nat) (l : List Char) :
    matcherSearch d m y l = true ↔
      ∃ s, s <:+ l ∧ matcherCond d m y s = true := by
  induction l with
  | nil =>
    rw [matcherSearch]
    constructor
    · intro h; exact ⟨[], List.suffix_rfl, h⟩
    · rintro ⟨s, hs, hm⟩
      have : s = [] := by simpa using hs
      subst this; exact hm
  | cons c l ih =>
    simp only [matcherSearch, Bool.or_eq_true, ih]
    constructor
    · rintro (h | ⟨s, hs, hm⟩)
      · exact ⟨c :: l, List.suffix_rfl, h⟩
      · exact ⟨s, hs.trans (List.suffix_cons c l), hm⟩
    · rintro ⟨s, hs, hm⟩
      rcases List.suffix_cons_iff.1 hs with h' | h'
      · subst h'; exact Or.inl hm
      · exact Or.inr ⟨s, h', hm⟩

/-- C1, counterexample.  The claim states the compiled predicate is true
iff (1) some *supplied* keyword token occurs anywhere in the filename,
(2) a locale token occurs, and (3) the date occurs anywhere in an
accepted encoding.  Both directions fail.  With keywords `["DECCAN"]`,
`"TOI Hyd 29-11-2025.pdf"` is accepted although no supplied keyword
occurs in it (`compile_matchers` never reads `keywords`).  With keywords
`["TOI"]`, `"TOI Hyd 29-11.pdf"` satisfies all three claimed conditions
yet is rejected: the year-less date alternatives are anchored at the
search position (the `.*` of `(?=.*P1|P2|P3|P4)` belongs to `P1` only),
and no position has `TOI`, a locale token and the date all at/after
it. -/
theorem C1_counterexample :
    (compiledMatcher ["DECCAN".data] "29-11-2025".data
        "TOI Hyd 29-11-2025.pdf".data = true ∧
      claimedMatcher ["DECCAN".data] 29 11 2025
        "TOI Hyd 29-11-2025.pdf".data = false) ∧
    (compiledMatcher ["TOI".data] "29-11-2025".data
        "TOI Hyd 29-11.pdf".data = false ∧
      claimedMatcher ["TOI".data] 29 11 2025
        "TOI Hyd 29-11.pdf".data = true) ∧
    parseDDMMYYYY "29-11-2025".data = some (29, 11, 2025) := by
  decide

/-- C1 (amended): for every keyword list and every date string parseable
as DD-MM-YYYY (`strptime`), the compiled predicate returns true iff,
case-insensitively, some position of the filename has all of the
following at once: the fixed token `TOI` occurs at or after it (the
supplied keyword list is ignored), a locale token (`Hyd`/`Hyderabad`)
occurs at or after it, and the date lookahead holds there — the
zero-padded day-month-year encoding occurs at or after the position,
or a year-less or bare-day encoding starts exactly at it.  Separators
are `-`, `.`, `/` or any whitespace character, chosen independently. -/
theorem C1_matcher_spec (keywords : List (List Char))
    (dateStr fname : List Char) (d m y : Nat)
    (h : parseDDMMYYYY dateStr = some (d, m, y)) :
    compiledMatcher keywords dateStr fname = true ↔
      ∃ s, s <:+ lower fname ∧
        containsB "toi".data s = true ∧
        (containsB "hyd".data s = true ∨
          containsB "hyderabad".data s = true) ∧
        ((∃ e ∈ dateEncodingsYear sepChars d m y, e <:+: s) ∨
          ∃ e ∈ dateEncodingsAnchored sepChars d m y, e <+: s) := by
  simp only [compiledMatcher, h]
  rw [matcherSearch_iff]
  constructor
  · rintro ⟨s, hs, hc⟩
    simp only [matcherCond, Bool.and_eq_true, Bool.or_eq_true] at hc
    exact ⟨s, hs, hc.1.1, hc.1.2, (dateLookahead_iff d m y s).1 hc.2⟩
  · rintro ⟨s, hs, h1, h2, h3⟩
    refine ⟨s, hs, ?_⟩
    simp only [matcherCond, Bool.and_eq_true, Bool.or_eq_true]
    exact ⟨⟨h1, h2⟩, (dateLookahead_iff d m y s).2 h3⟩

/-- Witness for `C1_matcher_spec` at the spec §8 scenario input, taking
the position 0 and the `-`-separated year-full encoding. -/
theorem C1_matcher_spec_witness :
    compiledMatcher ["TOI".data, "TOIH".data] "29-11-2025".data
      "TOI_Hyderabad_29-11-2025.pdf".data = true :=
  (C1_matcher_spec ["TOI".data, "TOIH".data] "29-11-2025".data
      "TOI_Hyderabad_29-11-2025.pdf".data 29 11 2025 (by decide)).2
    ⟨lower "TOI_Hyderabad_29-11-2025.pdf".data, List.suffix_rfl,
      by decide, Or.inl (by decide),
      Or.inl ⟨"29-11-2025".data, by decide, by decide⟩⟩

/-! ## `find_magazine.scan_channels` — candidates and deduplication

The extracted candidate is the dict built by `_extract_candidate` (the
`message` back-reference is omitted).  `date` holds
`msg.date.isoformat()`; Python compares these ISO strings with `>`, which
is lexicographic comparison, modelled by the lexicographic order on
`List Char`.  The dedup dict is keyed by `(filename, size)` and modelled
as an insertion-ordered association list, exactly Python's dict:
updating an existing key keeps its position, a new key is appended. -/

/-- A candidate magazine observation. -/
structure Candidate where
  msg_id : Nat
  channel_id : Nat
  channel_name : List Char
  filename : List Char
  size : Nat
  date : List Char
  caption : List Char
  link : List Char
deriving DecidableEq, Repr, Inhabited

/-- The deduplication identity key `(c['filename'], c['size'])`. -/
def Candidate.key (c : Candidate) : List Char × Nat := (c.filename, c.size)

/-- First-match association-list lookup (`key in deduped` /
`deduped[key]`). -/
def lookupKey : List ((List Char × Nat) × Candidate) →
    (List Char × Nat) → Option Candidate
  | [], _ => none
  | (k', v) :: t, k => if k' = k then some v else lookupKey t k

/-- In-place dict update of an existing key (`deduped[key] = c` when the
key is present: the entry keeps its position). -/
def replaceKey (m : List ((List Char × Nat) × Candidate))
    (k : List Char × Nat) (v : Candidate) :
    List ((List Char × Nat) × Candidate) :=
  m.map fun p => if p.1 = k then (k, v) else p

/-- One iteration of the dedup loop body:
`if key not in deduped or c['date'] > deduped[key]['date']: deduped[key] = c`. -/
def dedupStep (m : List ((List Char × Nat) × Candidate)) (c : Candidate) :
    List ((List Char × Nat) × Candidate) :=
  match lookupKey m c.key with
  | none => m ++ [(c.key, c)]
  | some old => if old.date < c.date then replaceKey m c.key c else m

/-- The dedup loop over the full candidate sequence. -/
def dedupFold (m : List ((List Char × Nat) × Candidate))
    (l : List Candidate) : List ((List Char × Nat) × Candidate) :=
  l.foldl dedupStep m

/-- `scan_channels` deduplication: the loop followed by
`list(deduped.values())`. -/
def dedup (l : List Candidate) : List Candidate :=
  (dedupFold [] l).map (·.2)

/-- One observation of a key updates the retained candidate:
first observation wins ties, a strictly later date replaces. -/
def winnerStep : Option Candidate → Candidate → Option Candidate
  | none, c => some c
  | some b, c => some (if b.date < c.date then c else b)

/-- The retained candidate after a stream of same-key observations. -/
def winner (cur : Option Candidate) (cs : List Candidate) : Option Candidate :=
  cs.foldl winnerStep cur

theorem lookupKey_eq_none_iff (m : List ((List Char × Nat) × Candidate))
    (k : List Char × Nat) :
    lookupKey m k = none ↔ k ∉ m.map (·.1) := by
  induction m with
  | nil => simp [lookupKey]
  | cons p t ih =>
    obtain ⟨k', v⟩ := p
    by_cases h : k' = k
    · subst h; simp [lookupKey]
    · simp only [lookupKey, if_neg h, ih, List.map_cons, List.mem_cons]
      constructor
      · intro hn hor
        exact hor.elim (fun he => h he.symm) hn
      · intro hn hm
        exact hn (Or.inr hm)

theorem lookupKey_append_of_none {m : List ((List Char × Nat) × Candidate)}
    {k : List Char × Nat} (h : lookupKey m k = none)
    (k' : List Char × Nat) (v : Candidate) :
    lookupKey (m ++ [(k', v)]) k = if k' = k then some v else none := by
  induction m with
  | nil => simp [lookupKey]
  | cons p t ih =>
    obtain ⟨k0, v0⟩ := p
    rw [lookupKey] at h
    by_cases h0 : k0 = k
    · simp [h0] at h
    · simp only [h0, if_neg, ite_false] at h
      simpa [lookupKey, h0] using ih h

theorem lookupKey_append_of_some {m : List ((List Char × Nat) × Candidate)}
    {k : List Char × Nat} {w : Candidate} (h : lookupKey m k = some w)
    (k' : List Char × Nat) (v : Candidate) :
    lookupKey (m ++ [(k', v)]) k = some w := by
  induction m with
  | nil => simp [lookupKey] at h
  | cons p t ih =>
    obtain ⟨k0, v0⟩ := p
    rw [lookupKey] at h
    by_cases h0 : k0 = k
    · simp only [h0, ite_true] at h
      simp [lookupKey, h0, h]
    · simp only [h0, ite_false] at h
      simpa [lookupKey, h0] using ih h

theorem lookupKey_replace_self {m : List ((List Char × Nat) × Candidate)}
    {k : List Char × Nat} {w : Candidate} (h : lookupKey m k = some w)
    (v : Candidate) : lookupKey (replaceKey m k v) k = some v := by
  induction m with
  | nil => simp [lookupKey] at h
  | cons p t ih =>
    obtain ⟨k0, v0⟩ := p
    rw [lookupKey] at h
    by_cases h0 : k0 = k
    · subst h0
      simp only [replaceKey, List.map_cons]
      rw [if_pos trivial, lookupKey, if_pos rfl]
    · rw [if_neg h0] at h
      have := ih h
      simp only [replaceKey, List.map_cons] at *
      rw [show (if (k0, v0).1 = k then (k, v) else (k0, v0)) = (k0, v0) from
        if_neg h0]
      rw [lookupKey, if_neg h0]
      exact this

theorem lookupKey_replace_ne (m : List ((List Char × Nat) × Candidate))
    {k' k : List Char × Nat} (h : k' ≠ k) (v : Candidate) :
    lookupKey (replaceKey m k' v) k = lookupKey m k := by
  induction m with
  | nil => simp [replaceKey, lookupKey]
  | cons p t ih =>
    obtain ⟨k0, v0⟩ := p
    simp only [replaceKey, List.map_cons] at *
    by_cases h0 : (k0, v0).1 = k'
    · rw [if_pos h0]
      simp only at h0
      subst h0
      rw [lookupKey, lookupKey, if_neg h, if_neg h]
      exact ih
    · rw [if_neg h0]
      rw [lookupKey, lookupKey]
      by_cases h1 : k0 = k
      · rw [if_pos h1, if_pos h1]
      · rw [if_neg h1, if_neg h1]
        exact ih

theorem lookupKey_dedupStep (m : List ((List Char × Nat) × Candidate))
    (c : Candidate) (k : List Char × Nat) :
    lookupKey (dedupStep m c) k =
      if c.key = k then winnerStep (lookupKey m k) c else lookupKey m k := by
  rw [dedupStep]
  split
  · rename_i h
    by_cases hk : c.key = k
    · subst hk
      simp [lookupKey_append_of_none h, winnerStep, h]
    · cases h' : lookupKey m k with
      | none => rw [lookupKey_append_of_none h', if_neg hk, if_neg hk]
      | some w => rw [lookupKey_append_of_some h', if_neg hk]
  · rename_i old h
    by_cases hd : old.date < c.date
    · rw [if_pos hd]
      by_cases hk : c.key = k
      · subst hk
        simp [lookupKey_replace_self h, winnerStep, h, hd]
      · rw [lookupKey_replace_ne m hk, if_neg hk]
    · rw [if_neg hd]
      by_cases hk : c.key = k
      · subst hk
        simp [winnerStep, h, hd]
      · rw [if_neg hk]

theorem lookupKey_dedupFold (l : List Candidate)
    (m : List ((List Char × Nat) × Candidate)) (k : List Char × Nat) :
    lookupKey (dedupFold m l) k =
      winner (lookupKey m k) (l.filter fun c => decide (c.key = k)) := by
  induction l generalizing m with
  | nil => simp [dedupFold, winner]
  | cons c l ih =>
    show lookupKey (dedupFold (dedupStep m c) l) k = _
    rw [ih, lookupKey_dedupStep]
    by_cases hk : c.key = k
    · simp [hk, winner, List.filter_cons]
    · simp [hk, winner, List.filter_cons]

theorem lookupKey_mem {m : List ((List Char × Nat) × Candidate)}
    {k : List Char × Nat} {v : Candidate} (h : lookupKey m k = some v) :
    (k, v) ∈ m := by
  induction m with
  | nil => simp [lookupKey] at h
  | cons p t ih =>
    obtain ⟨k0, v0⟩ := p
    rw [lookupKey] at h
    by_cases h0 : k0 = k
    · subst h0
      rw [if_pos rfl] at h
      rw [Option.some.injEq] at h
      subst h
      exact List.mem_cons_self _ _
    · rw [if_neg h0] at h
      exact List.mem_cons_of_mem _ (ih h)

theorem mem_lookupKey {m : List ((List Char × Nat) × Candidate)}
    (hnd : (m.map (·.1)).Nodup) {k : List Char × Nat} {v : Candidate}
    (hm : (k, v) ∈ m) : lookupKey m k = some v := by
  induction m with
  | nil => simp at hm
  | cons p t ih =>
    obtain ⟨k0, v0⟩ := p
    rw [List.map_cons, List.nodup_cons] at hnd
    rcases List.mem_cons.1 hm with h' | h'
    · rw [Prod.mk.injEq] at h'
      obtain ⟨rfl, rfl⟩ := h'
      rw [lookupKey, if_pos rfl]
    · rw [lookupKey]
      by_cases h0 : k0 = k
      · subst h0
        exact absurd (List.mem_map.2 ⟨(k0, v), h', rfl⟩) hnd.1
      · rw [if_neg h0]
        exact ih hnd.2 h'

/-- Every dict entry's value carries the entry's key. -/
def entryKeyInv (m : List ((List Char × Nat) × Candidate)) : Prop :=
  ∀ p ∈ m, p.2.key = p.1

theorem entryKeyInv_dedupStep {m : List ((List Char × Nat) × Candidate)}
    (h : entryKeyInv m) (c : Candidate) : entryKeyInv (dedupStep m c) := by
  rw [dedupStep]
  split
  · intro p hp
    rcases List.mem_append.1 hp with h' | h'
    · exact h p h'
    · rw [List.mem_singleton] at h'
      subst h'
      rfl
  · split
    · intro p hp
      rcases List.mem_map.1 hp with ⟨q, hq, rfl⟩
      by_cases hq1 : q.1 = c.key
      · simp only [replaceKey, hq1, if_pos]
      · rw [if_neg hq1]
        exact h q hq
    · exact h

theorem keys_replaceKey (m : List ((List Char × Nat) × Candidate))
    (k : List Char × Nat) (v : Candidate) :
    (replaceKey m k v).map (·.1) = m.map (·.1) := by
  rw [replaceKey, List.map_map]
  apply List.map_congr_left
  intro p _
  by_cases h : p.1 = k
  · simp [h]
  · simp [h]

theorem keysNodup_dedupStep {m : List ((List Char × Nat) × Candidate)}
    (h : (m.map (·.1)).Nodup) (c : Candidate) :
    ((dedupStep m c).map (·.1)).Nodup := by
  rw [dedupStep]
  split
  · rename_i hl
    rw [lookupKey_eq_none_iff] at hl
    simp only [List.map_append, List.map_cons, List.map_nil]
    rw [List.nodup_append]
    exact ⟨h, List.nodup_singleton _, by simpa using fun hmem => hl hmem⟩
  · split
    · rw [keys_replaceKey]
      exact h
    · exact h

theorem mem_dedupStep {m : List ((List Char × Nat) × Candidate)}
    {c : Candidate} {p : (List Char × Nat) × Candidate}
    (hp : p ∈ dedupStep m c) : p ∈ m ∨ p = (c.key, c) := by
  rw [dedupStep] at hp
  split at hp
  · rcases List.mem_append.1 hp with h' | h'
    · exact Or.inl h'
    · exact Or.inr (List.mem_singleton.1 h')
  · split at hp
    · rcases List.mem_map.1 hp with ⟨q, hq, rfl⟩
      by_cases hq1 : q.1 = c.key
      · rw [if_pos hq1]
        exact Or.inr rfl
      · rw [if_neg hq1]
        exact Or.inl hq
    · exact Or.inl hp

theorem length_dedupStep (m : List ((List Char × Nat) × Candidate))
    (c : Candidate) : (dedupStep m c).length ≤ m.length + 1 := by
  rw [dedupStep]
  split
  · simp
  · split
    · simp [replaceKey]
    · omega

theorem entryKeyInv_dedupFold {m : List ((List Char × Nat) × Candidate)}
    (h : entryKeyInv m) (l : List Candidate) :
    entryKeyInv (dedupFold m l) := by
  induction l generalizing m with
  | nil => exact h
  | cons c l ih => exact ih (entryKeyInv_dedupStep h c)

theorem keysNodup_dedupFold {m : List ((List Char × Nat) × Candidate)}
    (h : (m.map (·.1)).Nodup) (l : List Candidate) :
    ((dedupFold m l).map (·.1)).Nodup := by
  induction l generalizing m with
  | nil => exact h
  | cons c l ih => exact ih (keysNodup_dedupStep h c)

theorem mem_dedupFold {m : List ((List Char × Nat) × Candidate)}
    {l : List Candidate} {p : (List Char × Nat) × Candidate}
    (hp : p ∈ dedupFold m l) : p ∈ m ∨ p.2 ∈ l := by
  induction l generalizing m with
  | nil => exact Or.inl hp
  | cons c l ih =>
    rcases ih hp with h' | h'
    · rcases mem_dedupStep h' with h'' | h''
      · exact Or.inl h''
      · subst h''
        exact Or.inr (List.mem_cons_self _ _)
    · exact Or.inr (List.mem_cons_of_mem _ h')

theorem length_dedupFold (m : List ((List Char × Nat) × Candidate))
    (l : List Candidate) :
    (dedupFold m l).length ≤ m.length + l.length := by
  induction l generalizing m with
  | nil => simp [dedupFold]
  | cons c l ih =>
    calc (dedupFold (dedupStep m c) l).length
        ≤ (dedupStep m c).length + l.length := ih _
      _ ≤ m.length + (c :: l).length := by
          have := length_dedupStep m c
          simp only [List.length_cons]
          omega

theorem winner_eq_some_mem :
    ∀ (cs : List Candidate) (cur : Option Candidate) (r : Candidate),
      winner cur cs = some r → cur = some r ∨ r ∈ cs := by
  intro cs
  induction cs with
  | nil => intro cur r h; exact Or.inl h
  | cons c cs ih =>
    intro cur r h
    rcases ih (winnerStep cur c) r h with h' | h'
    · cases cur with
      | none =>
        rw [winnerStep, Option.some.injEq] at h'
        subst h'
        exact Or.inr (List.mem_cons_self _ _)
      | some b =>
        rw [winnerStep, Option.some.injEq] at h'
        by_cases hd : b.date < c.date
        · rw [if_pos hd] at h'
          subst h'
          exact Or.inr (List.mem_cons_self _ _)
        · rw [if_neg hd] at h'
          subst h'
          exact Or.inl rfl
    · exact Or.inr (List.mem_cons_of_mem _ h')

theorem winner_isSome :
    ∀ (cs : List Candidate) (cur : Option Candidate),
      (cur.isSome ∨ cs ≠ []) → (winner cur cs).isSome := by
  intro cs
  induction cs with
  | nil =>
    intro cur h
    exact h.elim id (fun h' => absurd rfl h')
  | cons c cs ih =>
    intro cur _
    apply ih (winnerStep cur c)
    cases cur <;> simp [winnerStep]

theorem winner_ge :
    ∀ (cs : List Candidate) (cur : Option Candidate) (r : Candidate),
      winner cur cs = some r →
        (∀ b, cur = some b → b.date ≤ r.date) ∧
          ∀ c ∈ cs, c.date ≤ r.date := by
  intro cs
  induction cs with
  | nil =>
    intro cur r h
    refine ⟨fun b hb => ?_, by simp⟩
    have hc : cur = some r := h
    rw [hb, Option.some.injEq] at hc
    subst hc
    exact le_rfl
  | cons c cs ih =>
    intro cur r h
    obtain ⟨ih1, ih2⟩ := ih (winnerStep cur c) r h
    have hcur : ∀ b, cur = some b → b.date ≤ r.date := by
      intro b hb
      subst hb
      have hm : b.date ≤ (if b.date < c.date then c else b).date := by
        by_cases hd : b.date < c.date
        · rw [if_pos hd]; exact le_of_lt hd
        · rw [if_neg hd]
      exact le_trans hm (ih1 _ rfl)
    refine ⟨hcur, fun x hx => ?_⟩
    rcases List.mem_cons.1 hx with h' | h'
    · subst h'
      cases cur with
      | none => exact ih1 x rfl
      | some b =>
        have hm : x.date ≤ (if b.date < x.date then x else b).date := by
          by_cases hd : b.date < x.date
          · rw [if_pos hd]
          · rw [if_neg hd]; exact le_of_not_lt hd
        exact le_trans hm (ih1 _ rfl)
    · exact ih2 x h'

theorem lookupKey_nil (k : List Char × Nat) : lookupKey [] k = none := rfl

/-- Membership in the dedup output is extensional (depends only on list
membership) once timestamps are tie-free within each identity key. -/
theorem mem_dedup_iff {l : List Candidate}
    (hties : ∀ c1 ∈ l, ∀ c2 ∈ l, c1.key = c2.key → c1.date = c2.date →
      c1 = c2) (r : Candidate) :
    r ∈ dedup l ↔
      r ∈ l ∧ ∀ c ∈ l, c.key = r.key → c ≠ r → c.date < r.date := by
  have hinv : entryKeyInv (dedupFold [] l) :=
    entryKeyInv_dedupFold (by intro p hp; simp at hp) l
  have hnd : ((dedupFold [] l).map (·.1)).Nodup :=
    keysNodup_dedupFold (by simp) l
  constructor
  · intro hr
    rcases List.mem_map.1 hr with ⟨p, hp, rfl⟩
    have hkey : p.2.key = p.1 := hinv p hp
    have hlk : lookupKey (dedupFold [] l) p.1 = some p.2 :=
      mem_lookupKey hnd (by simpa using hp)
    rw [lookupKey_dedupFold, lookupKey_nil] at hlk
    have hmem := winner_eq_some_mem _ _ _ hlk
    rcases hmem with h' | h'
    · cases h'
    have hrl : p.2 ∈ l := (List.mem_filter.1 h').1
    have hge := (winner_ge _ _ _ hlk).2
    refine ⟨hrl, fun c hc hck hcr => ?_⟩
    have hcf : c ∈ l.filter fun c => decide (c.key = p.1) :=
      List.mem_filter.2 ⟨hc, by simp [hck, hkey]⟩
    have hle := hge c hcf
    rcases lt_or_eq_of_le hle with h'' | h''
    · exact h''
    · exact absurd (hties c hc p.2 hrl (by rw [hck]) h'') hcr
  · rintro ⟨hrl, hmax⟩
    have hflt : r ∈ l.filter (fun c => decide (c.key = r.key)) :=
      List.mem_filter.2 ⟨hrl, by simp⟩
    have hne : l.filter (fun c => decide (c.key = r.key)) ≠ [] :=
      List.ne_nil_of_mem hflt
    have hsome := winner_isSome _ none (Or.inr hne)
    obtain ⟨w, hw⟩ := Option.isSome_iff_exists.1 hsome
    rcases winner_eq_some_mem _ _ _ hw with h' | h'
    · cases h'
    have hwl : w ∈ l := (List.mem_filter.1 h').1
    have hwkey : w.key = r.key := by
      have := (List.mem_filter.1 h').2
      simpa using this
    have hge : r.date ≤ w.date := (winner_ge _ _ _ hw).2 r hflt
    have hwr : w = r := by
      by_contra hne'
      exact absurd (lt_of_le_of_lt hge (hmax w hwl hwkey hne'))
        (lt_irrefl _)
    subst hwr
    have hlk : lookupKey (dedupFold [] l) w.key = some w := by
      rw [lookupKey_dedupFold, lookupKey_nil]
      exact hw
    exact List.mem_map.2 ⟨(w.key, w), lookupKey_mem hlk, rfl⟩

/-- Sample pair: identical identity key and identical timestamp, but
distinct candidates (different channels). -/
def cTieA : Candidate :=
  ⟨1, 10, "A".data, "f.pdf".data, 5, "2025-01-01T10:00:00+00:00".data,
    [], "la".data⟩

/-- Same key and timestamp as `cTieA`, different channel. -/
def cTieB : Candidate :=
  ⟨2, 11, "B".data, "f.pdf".data, 5, "2025-01-01T10:00:00+00:00".data,
    [], "lb".data⟩

/-- Sample pair with distinct timestamps on one identity key. -/
def cEarly : Candidate :=
  ⟨1, 10, "A".data, "g.pdf".data, 7, "2025-01-01T09:00:00+00:00".data,
    [], "l1".data⟩

/-- Same key as `cEarly`, one hour later. -/
def cLate : Candidate :=
  ⟨2, 10, "A".data, "g.pdf".data, 7, "2025-01-01T10:00:00+00:00".data,
    [], "l2".data⟩

/-- C2, counterexample.  The claim's "every permutation of the input
sequence yields the same output set" fails: on a timestamp tie within an
identity key, `c['date'] > deduped[key]['date']` (strict) keeps the first
observation, so the two orders of `[cTieA, cTieB]` retain different
candidates. -/
theorem C2_counterexample :
    [cTieA, cTieB].Perm [cTieB, cTieA] ∧
      dedup [cTieA, cTieB] = [cTieA] ∧
      dedup [cTieB, cTieA] = [cTieB] ∧ cTieA ≠ cTieB := by
  decide

/-- C2 (amended): unconditionally — for *every* candidate sequence,
ties included — the dedup step returns exactly one candidate per
`(filename, size)` key (keys are distinct, every input key is represented,
and every output candidate comes from the input), the retained candidate's
timestamp is `≥` that of every input candidate sharing its key, and the
output is no longer than the input.  *Provided timestamps are tie-free
within each key*, every permutation of the input yields the same output
set. -/
theorem C2_dedup_spec (l l' : List Candidate) :
    ((dedup l).map Candidate.key).Nodup ∧
      (∀ c ∈ l, ∃ r ∈ dedup l, r.key = c.key) ∧
      (∀ r ∈ dedup l, r ∈ l) ∧
      (∀ r ∈ dedup l, ∀ c ∈ l, c.key = r.key → c.date ≤ r.date) ∧
      (dedup l).length ≤ l.length ∧
      (l.Perm l' →
        (∀ c1 ∈ l, ∀ c2 ∈ l, c1.key = c2.key → c1.date = c2.date →
          c1 = c2) →
        ∀ r, r ∈ dedup l ↔ r ∈ dedup l') := by
  have hinv : entryKeyInv (dedupFold [] l) :=
    entryKeyInv_dedupFold (by intro p hp; simp at hp) l
  have hnd : ((dedupFold [] l).map (·.1)).Nodup :=
    keysNodup_dedupFold (by simp) l
  refine ⟨?_, ?_, ?_, ?_, ?_, ?_⟩
  · have : (dedup l).map Candidate.key = (dedupFold [] l).map (·.1) := by
      rw [dedup, List.map_map]
      exact List.map_congr_left fun p hp => hinv p hp
    rw [this]
    exact hnd
  · intro c hc
    have hflt : c ∈ l.filter fun x => decide (x.key = c.key) :=
      List.mem_filter.2 ⟨hc, by simp⟩
    have hsome := winner_isSome _ none
      (Or.inr (List.ne_nil_of_mem hflt))
    obtain ⟨w, hw⟩ := Option.isSome_iff_exists.1 hsome
    have hlk : lookupKey (dedupFold [] l) c.key = some w := by
      rw [lookupKey_dedupFold, lookupKey_nil]
      exact hw
    have hent := lookupKey_mem hlk
    exact ⟨w, List.mem_map.2 ⟨(c.key, w), hent, rfl⟩, hinv _ hent⟩
  · intro r hr
    rcases List.mem_map.1 hr with ⟨p, hp, rfl⟩
    rcases mem_dedupFold hp with h' | h'
    · simp at h'
    · exact h'
  · intro r hr c hc hck
    rcases List.mem_map.1 hr with ⟨p, hp, rfl⟩
    have hkey : p.2.key = p.1 := hinv p hp
    have hlk : lookupKey (dedupFold [] l) p.1 = some p.2 :=
      mem_lookupKey hnd (by simpa using hp)
    rw [lookupKey_dedupFold, lookupKey_nil] at hlk
    exact (winner_ge _ _ _ hlk).2 c
      (List.mem_filter.2 ⟨hc, by simp [hck, hkey]⟩)
  · have := length_dedupFold [] l
    simpa [dedup] using this
  · intro hperm hties r
    have hties' : ∀ c1 ∈ l', ∀ c2 ∈ l', c1.key = c2.key →
        c1.date = c2.date → c1 = c2 := fun c1 h1 c2 h2 =>
      hties c1 (hperm.mem_iff.2 h1) c2 (hperm.mem_iff.2 h2)
    rw [mem_dedup_iff hties r, mem_dedup_iff hties' r]
    constructor
    · rintro ⟨h1, h2⟩
      exact ⟨hperm.mem_iff.1 h1,
        fun c hc => h2 c (hperm.mem_iff.2 hc)⟩
    · rintro ⟨h1, h2⟩
      exact ⟨hperm.mem_iff.2 h1,
        fun c hc => h2 c (hperm.mem_iff.1 hc)⟩

/-- Witness for `C2_dedup_spec`: order-independence on a concrete tie-free
input. -/
theorem C2_dedup_spec_witness :
    cLate ∈ dedup [cEarly, cLate] ↔ cLate ∈ dedup [cLate, cEarly] :=
  (C2_dedup_spec [cEarly, cLate] [cLate, cEarly]).2.2.2.2.2 (by decide)
    (by decide) cLate

/-! ## `retry_with_backoff` (identical in `find_toi.py` lines 64–81 and
`find_magazine.py` lines 25–39)

The wrapped coroutine is modelled as a function from the attempt index to
the attempt's outcome.  `sqlite3.OperationalError` and every other
exception class are distinguished; the transient test is the substring
check `"database is locked" not in str(e)`.  A `for` loop that finishes
without returning makes the Python function return `None`, modelled as
`.value none`.  The list of delays slept before each retry is returned
alongside the result. -/

/-- Outcome of one invocation of the wrapped operation. -/
inductive Attempt (α : Type) where
  | ok (v : α)
  | opErr (msg : List Char)
  | exc (msg : List Char)

/-- Result of the wrapper: a returned value (`none` = Python `None`), or
an escaping exception (`isOpErr` tells whether it was an
`OperationalError`). -/
inductive RetryResult (α : Type) where
  | value (v : Option α)
  | raised (isOpErr : Bool) (msg : List Char)

/-- The transient-condition marker. -/
def lockedMsg : List Char := "database is locked".data

/-- The `for attempt in range(max_retries)` loop from index `attempt`,
with `remaining` iterations left (`remaining = max_retries - attempt` at
every call).  Returns the result and the delays slept. -/
def retryAux {α : Type} (f : Nat → Attempt α) (maxRetries : Nat) :
    Nat → Nat → Nat → RetryResult α × List Nat
  | _, _, 0 => (.value none, [])
  | attempt, delay, r + 1 =>
    match f attempt with
    | .ok v => (.value (some v), [])
    | .exc m => (.raised false m, [])
    | .opErr m =>
      if containsB lockedMsg m = false then (.raised true m, [])
      else if attempt = maxRetries - 1 then (.raised true m, [])
      else
        let res := retryAux f maxRetries (attempt + 1) (delay * 2) r
        (res.1, delay :: res.2)

/-- `retry_with_backoff(func, max_retries=..., initial_delay=...)`. -/
def retry_with_backoff {α : Type} (f : Nat → Attempt α)
    (maxRetries initialDelay : Nat) : RetryResult α × List Nat :=
  retryAux f maxRetries 0 initialDelay maxRetries

theorem retryAux_ok {α : Type} {f : Nat → Attempt α} {a : Nat} {v : α}
    (hm : f a = .ok v) (mr d r : Nat) :
    retryAux f mr a d (r + 1) = (.value (some v), []) := by
  rw [retryAux, hm]

theorem retryAux_exc {α : Type} {f : Nat → Attempt α} {a : Nat}
    {m : List Char} (hm : f a = .exc m) (mr d r : Nat) :
    retryAux f mr a d (r + 1) = (.raised false m, []) := by
  rw [retryAux, hm]

theorem retryAux_opErr_nl {α : Type} {f : Nat → Attempt α} {a : Nat}
    {m : List Char} (hm : f a = .opErr m)
    (hc : containsB lockedMsg m = false) (mr d r : Nat) :
    retryAux f mr a d (r + 1) = (.raised true m, []) := by
  rw [retryAux, hm]
  simp [hc]

theorem retryAux_opErr_last {α : Type} {f : Nat → Attempt α} {a : Nat}
    {m : List Char} (hm : f a = .opErr m)
    (hc : containsB lockedMsg m = true) {mr : Nat} (hl : a = mr - 1)
    (d r : Nat) :
    retryAux f mr a d (r + 1) = (.raised true m, []) := by
  rw [retryAux, hm]
  simp [hc, hl]

theorem retryAux_opErr_retry {α : Type} {f : Nat → Attempt α} {a : Nat}
    {m : List Char} (hm : f a = .opErr m)
    (hc : containsB lockedMsg m = true) {mr : Nat} (hl : a ≠ mr - 1)
    (d r : Nat) :
    retryAux f mr a d (r + 1) =
      ((retryAux f mr (a + 1) (d * 2) r).1,
        d :: (retryAux f mr (a + 1) (d * 2) r).2) := by
  rw [retryAux, hm]
  simp [hc, hl]

theorem retryAux_delays {α : Type} (f : Nat → Attempt α) (mr : Nat) :
    ∀ (r a d k : Nat), k < (retryAux f mr a d r).2.length →
      (retryAux f mr a d r).2[k]? = some (d * 2 ^ k) := by
  intro r
  induction r with
  | zero =>
    intro a d k h
    simp [retryAux] at h
  | succ r ih =>
    intro a d k h
    cases hfa : f a with
    | ok v =>
      rw [retryAux_ok hfa] at h
      simp at h
    | exc m =>
      rw [retryAux_exc hfa] at h
      simp at h
    | opErr m =>
      cases hcb : containsB lockedMsg m with
      | false =>
        rw [retryAux_opErr_nl hfa hcb] at h
        simp at h
      | true =>
        by_cases hl : a = mr - 1
        · rw [retryAux_opErr_last hfa hcb hl] at h
          simp at h
        · rw [retryAux_opErr_retry hfa hcb hl] at h ⊢
          match k with
          | 0 => simp
          | k + 1 =>
            have hlen : k < (retryAux f mr (a + 1) (d * 2) r).2.length := by
              simpa using h
            have := ih (a + 1) (d * 2) k hlen
            simp only [List.getElem?_cons_succ]
            rw [this]
            ring_nf

/-- C4: the retry/backoff wrapper with a 5-attempt budget returns the
success value when the transient lock clears on the 5th attempt; re-raises
the final lock error when all 5 attempts are locked; propagates any
non-transient failure immediately (no sleeps, so no retries); and the
delay slept before the `k`-th retry is `initial_delay * 2^k`. -/
theorem C4_retry_spec {α : Type} (f : Nat → Attempt α) (d : Nat) :
    (∀ v, (∀ i, i < 4 → ∃ m, f i = .opErr m ∧
        containsB lockedMsg m = true) →
      f 4 = .ok v → (retry_with_backoff f 5 d).1 = .value (some v)) ∧
    (∀ m4, (∀ i, i < 4 → ∃ m, f i = .opErr m ∧
        containsB lockedMsg m = true) →
      f 4 = .opErr m4 → containsB lockedMsg m4 = true →
      (retry_with_backoff f 5 d).1 = .raised true m4) ∧
    (∀ n m, f 0 = .exc m →
      retry_with_backoff f (n + 1) d = (.raised false m, [])) ∧
    (∀ n m, f 0 = .opErr m → containsB lockedMsg m = false →
      retry_with_backoff f (n + 1) d = (.raised true m, [])) ∧
    (∀ mr k, k < (retry_with_backoff f mr d).2.length →
      (retry_with_backoff f mr d).2[k]? = some (d * 2 ^ k)) := by
  refine ⟨?_, ?_, ?_, ?_, ?_⟩
  · intro v h1 h2
    obtain ⟨m0, hm0, hc0⟩ := h1 0 (by omega)
    obtain ⟨m1, hm1, hc1⟩ := h1 1 (by omega)
    obtain ⟨m2, hm2, hc2⟩ := h1 2 (by omega)
    obtain ⟨m3, hm3, hc3⟩ := h1 3 (by omega)
    rw [retry_with_backoff,
      retryAux_opErr_retry hm0 hc0 (by omega),
      retryAux_opErr_retry hm1 hc1 (by omega),
      retryAux_opErr_retry hm2 hc2 (by omega),
      retryAux_opErr_retry hm3 hc3 (by omega),
      retryAux_ok h2]
  · intro m4 h1 h2 hc4
    obtain ⟨m0, hm0, hc0⟩ := h1 0 (by omega)
    obtain ⟨m1, hm1, hc1⟩ := h1 1 (by omega)
    obtain ⟨m2, hm2, hc2⟩ := h1 2 (by omega)
    obtain ⟨m3, hm3, hc3⟩ := h1 3 (by omega)
    rw [retry_with_backoff,
      retryAux_opErr_retry hm0 hc0 (by omega),
      retryAux_opErr_retry hm1 hc1 (by omega),
      retryAux_opErr_retry hm2 hc2 (by omega),
      retryAux_opErr_retry hm3 hc3 (by omega),
      retryAux_opErr_last h2 hc4 (by omega)]
  · intro n m hm
    rw [retry_with_backoff, retryAux_exc hm]
  · intro n m hm hc
    rw [retry_with_backoff, retryAux_opErr_nl hm hc]
  · intro mr k h
    exact retryAux_delays f mr mr 0 d k h

/-- Witness for `C4_retry_spec`: a concrete operation locked on attempts
0–3 and succeeding on attempt 4. -/
theorem C4_retry_spec_witness :
    (retry_with_backoff
      (fun i => if i < 4 then Attempt.opErr lockedMsg else .ok 7) 5 1).1 =
      .value (some 7) :=
  (C4_retry_spec
      (fun i => if i < 4 then Attempt.opErr lockedMsg else .ok 7) 1).1 7
    (by
      intro i hi
      exact ⟨lockedMsg, by simp [hi], by decide⟩)
    (by norm_num)

/-- C10: with `max_retries = 0` (reachable via `--retry 0`), the loop body
never runs: the wrapper returns Python `None` without invoking the wrapped
operation (the result is the same for every wrapped operation), and no
error is raised. -/
theorem C10_retry_zero {α : Type} (f : Nat → Attempt α) (d : Nat) :
    retry_with_backoff f 0 d = (.value none, []) ∧
      ∀ g : Nat → Attempt α, retry_with_backoff f 0 d =
        retry_with_backoff g 0 d :=
  ⟨rfl, fun _ => rfl⟩

/-! ## Cache fingerprint (`evaluate_candidates`, lines 193 and 224)

The cache file name is
`hashlib.sha256(f"{user_keywords}:{c['filename']}:{c['size']}".encode()).hexdigest()`.
Every digest function maps equal inputs to equal digests, so the claim's
"no two distinct triples map deterministically to the same digest input"
is decided on the digest input string itself. -/

/-- The digest input `f"{user_keywords}:{c['filename']}:{c['size']}"`. -/
def digestInput (criteria filename : List Char) (size : Nat) : List Char :=
  criteria ++ ':' :: (filename ++ ':' :: natToDec size)

theorem append_colon_inj :
    ∀ {a1 a2 x y : List Char}, ':' ∉ a1 → ':' ∉ a2 →
      a1 ++ ':' :: x = a2 ++ ':' :: y → a1 = a2 ∧ x = y := by
  intro a1
  induction a1 with
  | nil =>
    intro a2 x y _ h2 h
    cases a2 with
    | nil =>
      simp only [List.nil_append, List.cons.injEq] at h
      exact ⟨rfl, h.2⟩
    | cons b bs =>
      simp only [List.nil_append, List.cons_append, List.cons.injEq] at h
      exact absurd (h.1 ▸ List.mem_cons_self b bs) h2
  | cons a as1 ih =>
    intro a2 x y h1 h2 h
    cases a2 with
    | nil =>
      simp only [List.cons_append, List.nil_append, List.cons.injEq] at h
      exact absurd (h.1 ▸ List.mem_cons_self a as1) h1
    | cons b bs =>
      simp only [List.cons_append, List.cons.injEq] at h
      obtain ⟨rfl, h'⟩ := h
      have := ih (fun hm => h1 (List.mem_cons_of_mem _ hm))
        (fun hm => h2 (List.mem_cons_of_mem _ hm)) h'
      exact ⟨by rw [this.1], this.2⟩

/-- C6, counterexample.  Two distinct `(criteria, filename, size)` triples
whose digest inputs coincide (the separator `:` also occurs inside the
criteria): every digest function then gives both triples the same
fingerprint, deterministically. -/
theorem C6_counterexample :
    digestInput "a:b".data "c".data 5 = digestInput "a".data "b:c".data 5 ∧
      ("a:b".data, "c".data, (5 : Nat)) ≠ ("a".data, "b:c".data, 5) := by
  decide

/-- C6 (amended): the digest input is a pure function of
`(criteria, filename, size)` — identical triples always yield identical
digest inputs (hence identical fingerprints) — and, *provided the criteria
string contains no `:`*, two triples yield the same digest input only if
they are equal. -/
theorem C6_fingerprint_spec (c1 f1 : List Char) (s1 : Nat)
    (c2 f2 : List Char) (s2 : Nat) (h1 : ':' ∉ c1) (h2 : ':' ∉ c2) :
    digestInput c1 f1 s1 = digestInput c2 f2 s2 ↔
      c1 = c2 ∧ f1 = f2 ∧ s1 = s2 := by
  constructor
  · intro h
    obtain ⟨hc, hrest⟩ := append_colon_inj h1 h2 h
    have hrev : (natToDec s1).reverse ++ ':' :: f1.reverse =
        (natToDec s2).reverse ++ ':' :: f2.reverse := by
      have := congrArg List.reverse hrest
      simpa [List.reverse_append] using this
    have hd1 : ':' ∉ (natToDec s1).reverse := fun hm =>
      mem_natToDec_ne_colon (List.mem_reverse.1 hm) rfl
    have hd2 : ':' ∉ (natToDec s2).reverse := fun hm =>
      mem_natToDec_ne_colon (List.mem_reverse.1 hm) rfl
    obtain ⟨hs, hf⟩ := append_colon_inj hd1 hd2 hrev
    refine ⟨hc, ?_, ?_⟩
    · have := congrArg List.reverse hf
      simpa using this
    · exact natToDec_injective (by
        have := congrArg List.reverse hs
        simpa using this)
  · rintro ⟨rfl, rfl, rfl⟩
    rfl

/-- Witness for `C6_fingerprint_spec` on a colon-free criteria string. -/
theorem C6_fingerprint_spec_witness :
    digestInput "science".data "a.pdf".data 5 =
        digestInput "science".data "b.pdf".data 5 ↔
      "science".data = "science".data ∧ "a.pdf".data = "b.pdf".data ∧
        (5 : Nat) = 5 :=
  C6_fingerprint_spec "science".data "a.pdf".data 5 "science".data
    "b.pdf".data 5 (by decide) (by decide)

/-! ## `MagazineSearcher` — candidate extraction and channel scan

A raw message exposes an optional attached document (itself exposing an
optional filename and a byte size), a caption (`msg.message or ""`), a
numeric id and the ISO timestamp.  The language detector (`langdetect`)
is an external collaborator, passed as a function returning `none` when
detection raises. -/

/-- `msg.media.document`: optional filename attribute and size. -/
structure Doc where
  filename : Option (List Char)
  size : Nat
deriving DecidableEq

/-- A raw channel message. -/
structure Msg where
  id : Nat
  doc : Option Doc
  caption : List Char
  date : List Char
deriving DecidableEq

/-- A dialog: broadcast flag, id, display name, message stream (most
recent first, as delivered by `iter_messages`). -/
structure Channel where
  broadcast : Bool
  chId : Nat
  title : List Char
  msgs : List Msg

/-- Python whitespace for `str.strip()` / `\s` (ASCII part). -/
def pyWhitespace (c : Char) : Bool :=
  c == ' ' || c == '\t' || c == '\n' || c == '\r' || c == '\x0b' ||
    c == '\x0c'

/-- Python `str.strip()`. -/
def strip (l : List Char) : List Char :=
  ((l.dropWhile pyWhitespace).reverse.dropWhile pyWhitespace).reverse

/-- `pathlib.Path(name).suffix`: from the last dot, unless that dot is the
first or the last character of the name. -/
def pathSuffix (s : List Char) : List Char :=
  let post := s.reverse.takeWhile fun c => c != '.'
  if post.length < s.length - 1 ∧ 0 < post.length then '.' :: post.reverse
  else []

/-- Boolean suffix test, Python `str.endswith`. -/
def isSuffixB (pat l : List Char) : Bool := isPrefixB pat.reverse l.reverse

/-- The executable/installer denylist of `scan_channels`. -/
def denylistExts : List (List Char) :=
  [".apk".data, ".exe".data, ".dmg".data, ".ipa".data]

/-- The document/archive allow-list of `_extract_candidate`. -/
def validExts : List (List Char) :=
  [".pdf".data, ".epub".data, ".mobi".data, ".zip".data, ".rar".data]

/-- The periodical-hint tokens of `_extract_candidate`. -/
def hintKeywords : List (List Char) :=
  ["magazine".data, "issue".data, "vol".data, "edition".data,
    "2024".data, "2025".data, "weekly".data, "monthly".data]

/-- Does one message carry a denylisted attachment
(`attr.file_name.lower().endswith(('.apk', '.exe', '.dmg', '.ipa'))`)? -/
def hasJunkAttachment (m : Msg) : Bool :=
  match m.doc with
  | some d =>
    match d.filename with
    | some fn => denylistExts.any fun e => isSuffixB e (lower fn)
    | none => false
  | none => false

/-- The channel-level junk prefilter: any of the first 20 messages has a
denylisted attachment. -/
def isJunkChannel (msgs : List Msg) : Bool :=
  (msgs.take 20).any hasJunkAttachment

/-- `_is_likely_english`, parameterised by the detector; detection failure
(`none`) falls back to `true`. -/
def isLikelyEnglish (detect : List Char → Option (List Char))
    (filename caption : List Char) : Bool :=
  let text := strip (filename ++ ' ' :: caption)
  if text = [] then false
  else
    match detect text with
    | some lang => lang == "en".data
    | none => true

/-- `_get_deep_link`. -/
def deepLink (channelId msgId : Nat) : List Char :=
  "tg://openmessage?chat_id=".data ++ natToDec channelId ++
    "&message_id=".data ++ natToDec msgId

/-- `_extract_candidate`: requires an attached document exposing a
non-empty filename; admits the message when the extension is allow-listed
or a hint token occurs in filename or caption; then applies the language
heuristic.  Note there is no denylist check here. -/
def extractCandidate (detect : List Char → Option (List Char))
    (channelName : List Char) (channelId : Nat) (m : Msg) :
    Option Candidate :=
  match m.doc with
  | none => none
  | some d =>
    match d.filename with
    | none => none
    | some filename =>
      if filename = [] then none
      else
        let ext := lower (pathSuffix filename)
        let hint := hintKeywords.any fun k =>
          containsB k (lower filename) || containsB k (lower m.caption)
        if validExts.contains ext ∨ hint = true then
          if isLikelyEnglish detect filename m.caption then
            some ⟨m.id, channelId, channelName, filename, d.size, m.date,
              m.caption, deepLink channelId m.id⟩
          else none
        else none

/-- The candidates one channel contributes to a scan: skipped entirely
when not a broadcast or when the junk prefilter fires; otherwise the first
`limit` messages are extracted. -/
def channelCandidates (detect : List Char → Option (List Char))
    (limit : Nat) (ch : Channel) : List Candidate :=
  if ch.broadcast = false then []
  else if isJunkChannel ch.msgs then []
  else (ch.msgs.take limit).filterMap
    (extractCandidate detect ch.title ch.chId)

/-- `scan_channels`: per-channel extraction followed by deduplication. -/
def scanChannels (detect : List Char → Option (List Char)) (limit : Nat)
    (channels : List Channel) : List Candidate :=
  dedup (channels.flatMap (channelCandidates detect limit))

/-! ## Decisions, the cache loop and the batch evaluator

A decision payload is the JSON dict read back by `.get` accesses: an
absent `decision`/`confidence` key is `none`, absent `reasons` is `[]`.
The classifier call is a parameter returning `none` when the transport
raises or `json.loads` fails (both are inside the same `try`), and
otherwise the parsed JSON value — an object mapping stringified indices
to decision payloads, or some other JSON shape (on which the subsequent
`.get` would raise `AttributeError`).  `json.load` for cache files is a
parameter `parse` returning `none` on malformed content, and the cache
directory a partial map from the fingerprint's digest input to file
content.  Exceptions escaping `evaluate_candidates` are `Except.error`. -/

/-- A decision payload. -/
structure Decision where
  decision : Option (List Char)
  confidence : Option (List Char)
  reasons : List (List Char)
deriving DecidableEq

/-- The fallback `{"decision": "NOT_RELEVANT"}` (no other keys). -/
def defaultDecision : Decision := ⟨some "NOT_RELEVANT".data, none, []⟩

/-- `decision.get('decision') == 'RELEVANT'`. -/
def isRelevant (d : Decision) : Bool := d.decision == some "RELEVANT".data

/-- A parsed classifier response: a JSON object keyed by strings, or any
other JSON shape. -/
inductive JVal where
  | jmap (entries : List (List Char × Decision))
  | jother

/-- `_call_gemini_batch`: any exception (transport or `json.loads`) is
caught and yields the empty dict. -/
def callGeminiBatch
    (gemini : List (Nat × List Char × List Char) → List Char → Option JVal)
    (kw : List Char) (items : List (Nat × List Char × List Char)) : JVal :=
  match gemini items kw with
  | none => .jmap []
  | some j => j

/-- First-match lookup in a string-keyed JSON object. -/
def lookupStr : List (List Char × Decision) → List Char → Option Decision
  | [], _ => none
  | (k, d) :: t, key => if k = key then some d else lookupStr t key

/-- The `metadata_list` of one batch: `(id, filename, caption)` per
candidate, ids local to the batch. -/
def batchItems (batch : List Candidate) :
    List (Nat × List Char × List Char) :=
  batch.enum.map fun p => (p.1, p.2.filename, p.2.caption)

/-- The per-batch decision assignment
`decisions.get(str(idx), {"decision": "NOT_RELEVANT"})`. -/
def assignBatch (batch : List Candidate)
    (m : List (List Char × Decision)) : List (Candidate × Decision) :=
  batch.enum.map fun p => (p.2, (lookupStr m (natToDec p.1)).getD defaultDecision)

/-- The batch loop `for i in range(0, len(to_evaluate), batch_size)` with
`batch_size = 10`, carrying structural fuel (`fuel ≥ length` at every
call).  A non-object classifier response raises `AttributeError` at
`decisions.get`; only `RELEVANT` candidates are appended to the
results. -/
def processBatches
    (gemini : List (Nat × List Char × List Char) → List Char → Option JVal)
    (kw : List Char) :
    Nat → List Candidate → Except (List Char) (List (Candidate × Decision))
  | _, [] => .ok []
  | 0, _ :: _ => .ok []
  | fuel + 1, c :: cs =>
    let batch := (c :: cs).take 10
    match callGeminiBatch gemini kw (batchItems batch) with
    | .jother => .error "AttributeError".data
    | .jmap m =>
      match processBatches gemini kw fuel ((c :: cs).drop 10) with
      | .error e => .error e
      | .ok rest =>
        .ok ((assignBatch batch m).filter (fun p => isRelevant p.2) ++ rest)

/-- The cache-lookup loop of `evaluate_candidates`: a cache hit is parsed
(`json.load`; a parse failure escapes as `JSONDecodeError`), appended to
the results when `RELEVANT`, and skipped otherwise; misses accumulate
into `to_evaluate`. -/
def cacheLoop (cacheEnabled : Bool)
    (cacheFS : List Char → Option (List Char))
    (parse : List Char → Option Decision) (kw : List Char) :
    List Candidate →
      Except (List Char) (List (Candidate × Decision) × List Candidate)
  | [] => .ok ([], [])
  | c :: cs =>
    let cached := if cacheEnabled then cacheFS (digestInput kw c.filename c.size)
      else none
    match cached with
    | some content =>
      match parse content with
      | none => .error "JSONDecodeError".data
      | some d =>
        match cacheLoop cacheEnabled cacheFS parse kw cs with
        | .error e => .error e
        | .ok (res, toEv) =>
          .ok (if isRelevant d then (c, d) :: res else res, toEv)
    | none =>
      match cacheLoop cacheEnabled cacheFS parse kw cs with
      | .error e => .error e
      | .ok (res, toEv) => .ok (res, c :: toEv)

/-- `evaluate_candidates`: cache loop, then batch evaluation of the
misses; results are cache hits (in candidate order) followed by batch
results (in batch order). -/
def evaluateCandidates (cacheEnabled : Bool)
    (cacheFS : List Char → Option (List Char))
    (parse : List Char → Option Decision)
    (gemini : List (Nat × List Char × List Char) → List Char → Option JVal)
    (kw : List Char) (candidates : List Candidate) :
    Except (List Char) (List (Candidate × Decision)) :=
  match cacheLoop cacheEnabled cacheFS parse kw candidates with
  | .error e => .error e
  | .ok (hits, toEval) =>
    match processBatches gemini kw toEval.length toEval with
    | .error e => .error e
    | .ok batchResults => .ok (hits ++ batchResults)

/-- The chunks `to_evaluate[i:i+10]` visited by the batch loop, with the
same structural fuel. -/
def chunksAux : Nat → List Candidate → List (List Candidate)
  | _, [] => []
  | 0, _ :: _ => []
  | fuel + 1, c :: cs => ((c :: cs).take 10) :: chunksAux fuel ((c :: cs).drop 10)

/-- All batches of a cache-miss list. -/
def chunks10 (l : List Candidate) : List (List Candidate) :=
  chunksAux l.length l

/-- C5: a cache file that exists but holds malformed content makes
`json.load` raise `JSONDecodeError`, and no handler catches it: the
exception escapes `evaluate_candidates` (aborting the pipeline) instead
of the claimed treat-as-miss-and-log-a-warning behaviour.  Concrete run:
one candidate, cache enabled, a stored entry whose parse fails. -/
theorem C5_corrupt_cache_raises :
    evaluateCandidates true (fun _ => some "corrupt".data)
        (fun _ => none) (fun _ _ => none) "science".data [cEarly] =
      .error "JSONDecodeError".data := by
  rfl

/-- A message carrying a denylisted attachment with a hint caption. -/
def apkMsg : Msg :=
  ⟨7, some ⟨some "setup.apk".data, 99⟩, "great magazine".data,
    "2025-01-01T00:00:00+00:00".data⟩

/-- A broadcast channel whose first message is a denylisted attachment. -/
def junkChannel : Channel :=
  ⟨true, 5, "Soft Channel".data, [apkMsg]⟩

/-- C9, counterexample.  In the semantic mode a message whose attached
filename has a denylisted extension (`setup.apk`) but whose caption holds
a hint token (`magazine`) *does* become a candidate:
`_extract_candidate` never consults the denylist. -/
theorem C9_counterexample :
    (extractCandidate (fun _ => some "en".data) "Ch".data 3
        apkMsg).isSome = true ∧
      (denylistExts.any fun e =>
        isSuffixB e (lower "setup.apk".data)) = true := by
  decide

/-- C9 (amended): the denylist acts at channel level only: a channel
among whose first 20 scanned messages is a denylisted attachment is
skipped entirely and contributes no candidates; inside a scanned channel
the extractor does not consult the denylist. -/
theorem C9_denylist_spec (detect : List Char → Option (List Char))
    (limit : Nat) (ch : Channel)
    (hjunk : isJunkChannel ch.msgs = true) :
    channelCandidates detect limit ch = [] := by
  rw [channelCandidates]
  cases hb : ch.broadcast
  · rw [if_pos rfl]
  · rw [if_neg (by simp : ¬(true : Bool) = false), if_pos hjunk]

/-- Witness for `C9_denylist_spec` on a concrete junk channel. -/
theorem C9_denylist_spec_witness :
    channelCandidates (fun _ => some "en".data) 500 junkChannel = [] :=
  C9_denylist_spec (fun _ => some "en".data) 500 junkChannel (by decide)

/-- `find_toi.ai_filter_matches`, parameterised by key availability
(`GOOGLE_API_KEY` present and `genai` importable) and the classifier
response, `none` standing for any exception of the call or of reading
`response.text`. -/
def aiFilterMatches (hasKey : Bool) (resp : Option (List Char))
    (filenames : List (List Char)) : List (List Char) :=
  if hasKey = false then filenames
  else
    match resp with
    | none => filenames
    | some text =>
      let ms := ((splitOnChar '\n' (strip text)).map strip).filter
        fun l => decide (l ≠ [])
      ms.filter fun f => filenames.contains f

/-- C8, counterexample.  A failing classifier call in the filename
semantic-filter path returns the whole input list (fail-open), not the
claimed empty result. -/
theorem C8_counterexample :
    aiFilterMatches true none ["a.pdf".data, "b.pdf".data] =
        ["a.pdf".data, "b.pdf".data] ∧
      ["a.pdf".data, "b.pdf".data] ≠ ([] : List (List Char)) := by
  decide

/-- C8 (amended): classifier failures never propagate and never abort the
scan, but the two paths degrade differently: `_call_gemini_batch` converts
any failure into the empty mapping (no decisions), while
`ai_filter_matches` returns its input filename list unchanged (fail-open)
on failure or on a missing API key. -/
theorem C8_failure_spec (filenames : List (List Char))
    (resp : Option (List Char))
    (gemini : List (Nat × List Char × List Char) → List Char → Option JVal)
    (kw : List Char) (items : List (Nat × List Char × List Char))
    (hfail : gemini items kw = none) :
    aiFilterMatches true none filenames = filenames ∧
      aiFilterMatches false resp filenames = filenames ∧
      callGeminiBatch gemini kw items = .jmap [] := by
  refine ⟨rfl, rfl, ?_⟩
  rw [callGeminiBatch, hfail]

/-- Witness for `C8_failure_spec` on a concretely failing classifier. -/
theorem C8_failure_spec_witness :
    callGeminiBatch (fun _ _ => none) "science".data [] = .jmap [] :=
  (C8_failure_spec [] none (fun _ _ => none) "science".data [] rfl).2.2

theorem lookupStr_eq_none {m : List (List Char × Decision)}
    {key : List Char} (h : key ∉ m.map (·.1)) : lookupStr m key = none := by
  induction m with
  | nil => rfl
  | cons p t ih =>
    obtain ⟨k0, d0⟩ := p
    rw [List.map_cons, List.mem_cons] at h
    push_neg at h
    rw [lookupStr, if_neg (fun he => h.1 he.symm)]
    exact ih h.2

theorem chunksAux_length_le :
    ∀ (fuel : Nat) (l : List Candidate), ∀ b ∈ chunksAux fuel l,
      b.length ≤ 10 := by
  intro fuel
  induction fuel with
  | zero =>
    intro l b hb
    cases l with
    | nil => simp [chunksAux] at hb
    | cons c cs => simp [chunksAux] at hb
  | succ fuel ih =>
    intro l b hb
    cases l with
    | nil => simp [chunksAux] at hb
    | cons c cs =>
      rw [chunksAux] at hb
      rcases List.mem_cons.1 hb with h' | h'
      · subst h'
        rw [List.length_take]
        omega
      · exact ih _ b h'

theorem chunksAux_flatten :
    ∀ (fuel : Nat) (l : List Candidate), l.length ≤ fuel →
      (chunksAux fuel l).flatten = l := by
  intro fuel
  induction fuel with
  | zero =>
    intro l hl
    cases l with
    | nil => rfl
    | cons c cs => simp at hl
  | succ fuel ih =>
    intro l hl
    cases l with
    | nil => rfl
    | cons c cs =>
      rw [chunksAux, List.flatten_cons,
        ih ((c :: cs).drop 10) (by simp at hl ⊢; omega),
        List.take_append_drop]

theorem assignBatch_getElem (batch : List Candidate)
    (m : List (List Char × Decision)) (i : Nat) :
    (assignBatch batch m)[i]? = (batch[i]?).map fun c =>
      (c, (lookupStr m (natToDec i)).getD defaultDecision) := by
  rw [assignBatch, List.getElem?_map, List.getElem?_enum]
  cases h : batch[i]? <;> simp

theorem callGeminiBatch_jmap
    (gemini : List (Nat × List Char × List Char) → List Char → Option JVal)
    (kw : List Char)
    (hmaps : ∀ items, gemini items kw = none ∨
      ∃ mm, gemini items kw = some (.jmap mm))
    (items : List (Nat × List Char × List Char)) :
    ∃ mm, callGeminiBatch gemini kw items = .jmap mm := by
  rcases hmaps items with h | ⟨mm, h⟩
  · exact ⟨[], by rw [callGeminiBatch, h]⟩
  · exact ⟨mm, by rw [callGeminiBatch, h]⟩

theorem processBatches_ok
    (gemini : List (Nat × List Char × List Char) → List Char → Option JVal)
    (kw : List Char)
    (hmaps : ∀ items, gemini items kw = none ∨
      ∃ mm, gemini items kw = some (.jmap mm)) :
    ∀ (fuel : Nat) (l : List Candidate),
      ∃ res, processBatches gemini kw fuel l = .ok res := by
  intro fuel
  induction fuel with
  | zero =>
    intro l
    cases l with
    | nil => exact ⟨[], rfl⟩
    | cons c cs => exact ⟨[], rfl⟩
  | succ fuel ih =>
    intro l
    cases l with
    | nil => exact ⟨[], rfl⟩
    | cons c cs =>
      obtain ⟨mm, hmm⟩ := callGeminiBatch_jmap gemini kw hmaps
        (batchItems ((c :: cs).take 10))
      obtain ⟨rest, hrest⟩ := ih ((c :: cs).drop 10)
      refine ⟨(assignBatch ((c :: cs).take 10) mm).filter
        (fun p => isRelevant p.2) ++ rest, ?_⟩
      rw [processBatches]
      simp only [hmm, hrest]

/-- C3: batches contain at most 10 candidates and jointly cover the
cache-miss list; the per-batch assignment gives every candidate a
decision (its length equals the batch's); any candidate whose stringified
index is absent from the (partial) response mapping receives the default
`NOT_RELEVANT` decision with no reasons; and with every classifier
response either failing or an object, the batch evaluator completes
without an escaping exception. -/
theorem C3_batch_tolerance (l batch : List Candidate)
    (m : List (List Char × Decision))
    (gemini : List (Nat × List Char × List Char) → List Char → Option JVal)
    (kw : List Char)
    (hkeys : ∀ k ∈ m.map (·.1), ∃ i, i < batch.length ∧ k = natToDec i)
    (hstrict : ∃ i, i < batch.length ∧ natToDec i ∉ m.map (·.1))
    (hmaps : ∀ items, gemini items kw = none ∨
      ∃ mm, gemini items kw = some (.jmap mm)) :
    (∀ b ∈ chunks10 l, b.length ≤ 10) ∧
      (chunks10 l).flatten = l ∧
      (assignBatch batch m).length = batch.length ∧
      (∀ i, i < batch.length → natToDec i ∉ m.map (·.1) →
        (assignBatch batch m)[i]? =
          (batch[i]?).map fun c => (c, defaultDecision)) ∧
      ∃ res, processBatches gemini kw l.length l = .ok res := by
  refine ⟨fun b hb => chunksAux_length_le l.length l b hb,
    chunksAux_flatten l.length l le_rfl, ?_, ?_, ?_⟩
  · rw [assignBatch, List.length_map, List.enum_length]
  · intro i _ hmem
    rw [assignBatch_getElem, lookupStr_eq_none hmem]
    rfl
  · exact processBatches_ok gemini kw hmaps l.length l

/-- The `RELEVANT` decision payload used in concrete runs. -/
def relevantDecision : Decision := ⟨some "RELEVANT".data, none, []⟩

/-- Witness for `C3_batch_tolerance`: a 2-candidate batch whose response
covers only index 0; candidate 1 resolves to the default decision. -/
theorem C3_batch_tolerance_witness :
    (assignBatch [cEarly, cLate] [(natToDec 0, relevantDecision)])[1]? =
      some (cLate, defaultDecision) := by
  have h := (C3_batch_tolerance [cEarly] [cEarly, cLate]
    [(natToDec 0, relevantDecision)] (fun _ _ => none) "science".data
    (by
      intro k hk
      have hk' : k = natToDec 0 := by simpa using hk
      exact ⟨0, by simp, hk'⟩)
    ⟨1, by simp, by decide⟩
    (fun _ => Or.inl rfl)).2.2.2.1 1 (by simp) (by decide)
  simpa using h

/-! ## Ranking (C7)

`find_toi.find_matching_files` sorts its match list with
`matches.sort(key=lambda x: x[4] or 0, reverse=True)`: a stable sort,
descending on file size (`or 0` only maps a falsy size to 0, the identity
on naturals).  `find_magazine` never sorts: `save_outputs` writes
`results` in exactly the order `evaluate_candidates` produced them
(cache hits in candidate order, then batch results in batch order). -/

/-- One `find_toi` match tuple `(dialog, msg, fname, channel_title,
file_size)`, with the client objects represented by their ids. -/
structure ToiMatch where
  filename : List Char
  channelTitle : List Char
  msgId : Nat
  size : Nat
deriving DecidableEq

/-- `matches.sort(key=lambda x: x[4] or 0, reverse=True)`. -/
def sortMatches (l : List ToiMatch) : List ToiMatch :=
  l.mergeSort fun a b => decide (b.size ≤ a.size)

theorem cacheLoop_disabled (cacheFS : List Char → Option (List Char))
    (parse : List Char → Option Decision) (kw : List Char) :
    ∀ l, cacheLoop false cacheFS parse kw l = .ok ([], l) := by
  intro l
  induction l with
  | nil => rfl
  | cons c cs ih =>
    rw [cacheLoop]
    simp [ih]

theorem assignBatch_map_fst (batch : List Candidate)
    (m : List (List Char × Decision)) :
    (assignBatch batch m).map Prod.fst = batch := by
  rw [assignBatch, List.map_map]
  exact List.enum_map_snd batch

theorem processBatches_fst_sublist
    (gemini : List (Nat × List Char × List Char) → List Char → Option JVal)
    (kw : List Char) :
    ∀ (fuel : Nat) (l : List Candidate) (res : List (Candidate × Decision)),
      processBatches gemini kw fuel l = .ok res →
        (res.map Prod.fst).Sublist l := by
  intro fuel
  induction fuel with
  | zero =>
    intro l res h
    cases l with
    | nil =>
      simp [processBatches] at h
      subst h
      simp
    | cons c cs =>
      simp [processBatches] at h
      subst h
      simp
  | succ fuel ih =>
    intro l res h
    cases l with
    | nil =>
      simp [processBatches] at h
      subst h
      simp
    | cons c cs =>
      rw [processBatches] at h
      split at h
      · exact absurd h (by simp)
      · rename_i mm hcall
        split at h
        · exact absurd h (by simp)
        · rename_i rest hrec
          rw [Except.ok.injEq] at h
          subst h
          rw [List.map_append]
          have h1 : (((assignBatch (c :: cs.take 9) mm).filter
              (fun p => isRelevant p.2)).map Prod.fst).Sublist
              (c :: cs.take 9) := by
            have hf := (List.filter_sublist
              (l := assignBatch (c :: cs.take 9) mm)
              (p := fun p => isRelevant p.2)).map Prod.fst
            rwa [assignBatch_map_fst] at hf
          have h2 := ih _ rest hrec
          have h3 := List.Sublist.append h1 h2
          have heq : (c :: cs.take 9) ++ (c :: cs).drop 10 = c :: cs := by
            rw [List.cons_append, List.drop_succ_cons,
              List.take_append_drop]
          rwa [heq] at h3

/-- A small candidate followed by a bigger one (identity keys differ). -/
def cSmall : Candidate :=
  ⟨1, 10, "A".data, "s.pdf".data, 5, "2025-01-01T00:00:00+00:00".data,
    [], "ls".data⟩

/-- A candidate larger than `cSmall`. -/
def cBig : Candidate :=
  ⟨2, 10, "A".data, "b.pdf".data, 10, "2025-01-02T00:00:00+00:00".data,
    [], "lb".data⟩

/-- C7, counterexample.  In the semantic/classifier mode (cache disabled,
classifier marking everything `RELEVANT`), the final result list keeps
evaluation order: a 5-byte file ahead of a 10-byte file, not descending
by size. -/
theorem C7_counterexample :
    evaluateCandidates false (fun _ => none) (fun _ => none)
        (fun _ _ => some (.jmap [(natToDec 0, relevantDecision),
          (natToDec 1, relevantDecision)]))
        "science".data [cSmall, cBig] =
      .ok [(cSmall, relevantDecision), (cBig, relevantDecision)] ∧
      cSmall.size < cBig.size :=
  ⟨rfl, by decide⟩

/-- C7 (amended): the deterministic `find_toi` mode does sort the final
matches by descending file size (a permutation of the matches, pairwise
non-increasing); the semantic `find_magazine` mode does not sort — with
the cache disabled its results are a subsequence of the candidate order
(evaluation order), whatever the sizes. -/
theorem C7_ranking_spec (l : List ToiMatch) (candidates : List Candidate)
    (cacheFS : List Char → Option (List Char))
    (parse : List Char → Option Decision)
    (gemini : List (Nat × List Char × List Char) → List Char → Option JVal)
    (kw : List Char)
    (hmaps : ∀ items, gemini items kw = none ∨
      ∃ mm, gemini items kw = some (.jmap mm)) :
    (sortMatches l).Perm l ∧
      List.Pairwise (fun a b : ToiMatch => b.size ≤ a.size)
        (sortMatches l) ∧
      ∃ res, evaluateCandidates false cacheFS parse gemini kw candidates =
          .ok res ∧ (res.map Prod.fst).Sublist candidates := by
  refine ⟨List.mergeSort_perm l _, ?_, ?_⟩
  · have hs := @List.sorted_mergeSort ToiMatch
      (fun a b => decide (b.size ≤ a.size))
      (fun a b c hab hbc => by
        simp only [decide_eq_true_eq] at hab hbc ⊢
        omega)
      (fun a b => by simpa using Nat.le_total b.size a.size) l
    exact List.Pairwise.imp (fun h => by simpa using h) hs
  · obtain ⟨res, hres⟩ := processBatches_ok gemini kw hmaps
      candidates.length candidates
    refine ⟨res, ?_, processBatches_fst_sublist gemini kw _ _ _ hres⟩
    rw [evaluateCandidates, cacheLoop_disabled]
    simp [hres]

/-- Two matches in ascending size order. -/
def tm1 : ToiMatch := ⟨"a.pdf".data, "Ch".data, 1, 5⟩

/-- A bigger match. -/
def tm2 : ToiMatch := ⟨"b.pdf".data, "Ch".data, 2, 9⟩

/-- Witness for `C7_ranking_spec` at concrete inputs. -/
theorem C7_ranking_spec_witness :
    List.Pairwise (fun a b : ToiMatch => b.size ≤ a.size)
      (sortMatches [tm1, tm2]) :=
  (C7_ranking_spec [tm1, tm2] [] (fun _ => none) (fun _ => none)
    (fun _ _ => none) "science".data (fun _ => Or.inl rfl)).2.1

end TGScanner
